import Mathlib

/-!
Shallow embedding of IPython/core/display.py: the `DisplayObject`
hierarchy (`SVG`, `Image`), the `display_*` convenience wrappers and
`reload`'s file/URL resolution, together with proofs of the spec's
testable properties.  External effects (local files, HTTP, codecs) are
passed in as an explicit environment; the XML layer used by `SVG.data`
is modelled by an executable parser/serializer pair further below.
-/

namespace IPyDisplay

/-- Python `s.startswith(p)`. -/
def pyStartsWith (s p : String) : Bool :=
  p.data.isPrefixOf s.data

/-- The whitespace set of Python's `str.strip()`. -/
def pySpace (c : Char) : Bool :=
  c = ' ' || c = '\t' || c = '\n' || c = '\r' || c = '\x0b' || c = '\x0c'

/-- Split a character list at every occurrence of `sep` (Python
`str.split(sep)` with a one-character separator). -/
def splitCh (sep : Char) : List Char → List (List Char)
  | [] => [[]]
  | c :: rest =>
    if c = sep then [] :: splitCh sep rest
    else
      match splitCh sep rest with
      | [] => [[c]]
      | h :: t => (c :: h) :: t

/-- Python `s.split(sep)` for a one-character separator. -/
def pySplit (s : String) (sep : Char) : List String :=
  (splitCh sep s.data).map String.mk

/-- Python `s.strip()`. -/
def pyStrip (s : String) : String :=
  String.mk (((s.data.dropWhile pySpace).reverse.dropWhile pySpace).reverse)

/-- Python `s.lower()` (ASCII case folding). -/
def pyLower (s : String) : String :=
  String.mk (s.data.map Char.toLower)

/-- Exceptions that the translated code can raise. -/
inductive PyError where
  | attributeError
  | ioError
  | xmlParseError
deriving DecidableEq, Repr

/-- An HTTP response as seen by `reload`: the body returned by `read()`
and the optional `content-type` header (absent header raises `KeyError`). -/
structure HttpResponse where
  body : String
  contentType : Option String
deriving DecidableEq, Repr

/-- The external world: local file reads (path, mode flags), HTTP GET
(`none` models a raised fetch error) and byte/charset decoding
(`none` models a codec lookup error). -/
structure Env where
  readFile : String → String → Option String
  fetch : String → Option HttpResponse
  decode : String → String → Option String

/-- The loop in `reload` that scans the content-type header parts for a
`charset` parameter: split on `;`, strip, first part starting with
`charset` yields the text after the last `=`, stripped. -/
def charsetLoop : List String → Option String
  | [] => none
  | sub :: rest =>
    let sub2 := pyStrip sub
    if pyStartsWith sub2 "charset" then
      some (pyStrip ((pySplit sub2 '=').getLastD ""))
    else charsetLoop rest

/-- Charset extraction from a `content-type` header value. -/
def extractEncoding (ct : String) : Option String :=
  charsetLoop (pySplit ct ';')

/-- The URL branch of `DisplayObject.reload`: the whole block is inside
`try/except`, so a missing header, codec error or fetch error yields
`none` (Python: `self.data = None`). An empty charset is falsy in
Python, so no decode is attempted for it. -/
def urlFetch (env : Env) (u : String) : Option String :=
  match env.fetch u with
  | none => none
  | some resp =>
    match resp.contentType with
    | none => none
    | some ct =>
      match extractEncoding ct with
      | none => some resp.body
      | some enc =>
        if enc = "" then some resp.body
        else
          match env.decode enc resp.body with
          | none => none
          | some d => some d

/-- The `data`/`url`/`filename` triple held by a `DisplayObject`. -/
structure DObj where
  data : Option String
  url : Option String
  filename : Option String
deriving DecidableEq, Repr

/-- `DisplayObject._read_flags`. -/
def DisplayObject.readFlags : String := "r"

/-- `DisplayObject.reload`: filename wins over url; a failing local file
open propagates, a failing fetch is swallowed by `urlFetch`; with
neither source set the object is returned unchanged. -/
def DisplayObject.reload (env : Env) (flags : String) (o : DObj) :
    Except PyError DObj :=
  match o.filename with
  | some fn =>
    match env.readFile fn flags with
    | none => .error PyError.ioError
    | some c => .ok { o with data := some c }
  | none =>
    match o.url with
    | some u => .ok { o with data := urlFetch env u }
    | none => .ok o

/-- The field assignments of `DisplayObject.__init__` before the final
`self.reload()` call: data beginning with `http` is moved to `url`. -/
def DisplayObject.initState (data url filename : Option String) : DObj :=
  match data with
  | some d =>
    if pyStartsWith d "http" then ⟨none, some d, none⟩
    else ⟨some d, url, filename⟩
  | none => ⟨none, url, filename⟩

/-- `DisplayObject.__init__`: assign the fields, then `self.reload()`. -/
def DisplayObject.init (env : Env) (data url filename : Option String) :
    Except PyError DObj :=
  DisplayObject.reload env DisplayObject.readFlags
    (DisplayObject.initState data url filename)

/-- `Image._read_flags` (binary mode). -/
def Image.readFlags : String := "rb"

/-- An `Image`: the `DisplayObject` fields plus `format` and `embed`. -/
structure ImageObj where
  data : Option String
  url : Option String
  filename : Option String
  format : String
  embed : Bool
deriving DecidableEq, Repr

/-- The `DisplayObject` part of an `Image`. -/
def ImageObj.toDObj (o : ImageObj) : DObj :=
  ⟨o.data, o.url, o.filename⟩

/-- `Image._find_ext`: `s.split('.')[-1].lower()`. -/
def findExt (s : String) : String :=
  pyLower ((pySplit s '.').getLastD "")

/-- The two `if` statements of `Image.__init__` that let a recognized
extension override the caller-supplied format. -/
def resolveFormat (ext : Option String) (format : String) : String :=
  match ext with
  | none => format
  | some e =>
    let f := if e = "jpg" || e = "jpeg" then "jpeg" else format
    if e = "png" then "png" else f

/-- `Image.reload`: only delegates to `DisplayObject.reload` (with the
binary read flags) when `embed` is set. -/
def Image.reload (env : Env) (o : ImageObj) : Except PyError ImageObj :=
  if o.embed then
    match DisplayObject.reload env Image.readFlags o.toDObj with
    | .error e => .error e
    | .ok d => .ok { o with data := d.data, url := d.url, filename := d.filename }
  else .ok o

/-- The extension-inference chain at the top of `Image.__init__`:
filename first, else url, else a `data` value that looks like a URL;
with all three `None` the attribute access on `None` raises. -/
def Image.extOf (data url filename : Option String) :
    Except PyError (Option String) :=
  match filename with
  | some f => .ok (some (findExt f))
  | none =>
    match url with
    | some u => .ok (some (findExt u))
    | none =>
      match data with
      | none => .error PyError.attributeError
      | some d =>
        if pyStartsWith d "http" then .ok (some (findExt d)) else .ok none

/-- `Image.__init__`: infer the extension from filename, else url, else
a `data` value that looks like a URL (raising `AttributeError` when all
three are `None`), resolve the format, force `embed` for filenames, then
run the `DisplayObject` constructor whose `self.reload()` dispatches to
`Image.reload`. -/
def Image.init (env : Env) (data url filename : Option String)
    (format : String) (embed : Bool) : Except PyError ImageObj :=
  match Image.extOf data url filename with
  | .error e => .error e
  | .ok ext =>
    let fmt := pyLower (resolveFormat ext format)
    let emb := if filename.isSome then true else embed
    let o := DisplayObject.initState data url filename
    let img : ImageObj := ⟨o.data, o.url, o.filename, fmt, emb⟩
    Image.reload env img

/-- Python `'%s' % x` for an optional string. -/
def optStr : Option String → String
  | none => "None"
  | some s => s

/-- `Image._repr_html_`: a reference-style `<img>` tag when the image is
not embedded, nothing otherwise. -/
def Image.reprHtml (o : ImageObj) : Option String :=
  if o.embed then none
  else some ("<img src=\"" ++ optStr o.url ++ "\" />")

/-- `Image._repr_png_`. -/
def Image.reprPng (o : ImageObj) : Option String :=
  if o.embed && o.format = "png" then o.data else none

/-- `Image._repr_jpeg_`. -/
def Image.reprJpeg (o : ImageObj) : Option String :=
  if o.embed && (o.format = "jpeg" || o.format = "jpg") then o.data else none

/-! ## The display functions

The Formatter and Publisher are external collaborators; calls into them
are recorded as an event trace. -/

/-- The Formatter collaborator: objects of type `α`, rendered format
dictionaries of type `β`. -/
structure DisplayEnv (α β : Type) where
  format : α → Option (List String) → Option (List String) → β

/-- One externally visible call made by the display functions. -/
inductive DispEvent (α β : Type) where
  | formatCall (obj : α) (incl excl : Option (List String))
  | publish (source : String) (formatDict : β)
  | publishPretty (obj : α)
  | publishHtml (obj : α)
  | publishSvg (obj : α)
  | publishPng (obj : α)
  | publishJpeg (obj : α)
  | publishLatex (obj : α)
  | publishJson (obj : α)
  | publishJavascript (obj : α)
deriving DecidableEq

/-- `display`: per object, one Formatter call honoring the filters and
one publish of the resulting format dict. -/
def display {α β : Type} (env : DisplayEnv α β) (objs : List α)
    (incl excl : Option (List String)) : List (DispEvent α β) :=
  objs.flatMap fun o =>
    [DispEvent.formatCall o incl excl,
     DispEvent.publish "IPython.core.display.display" (env.format o incl excl)]

/-- `display_html`: raw objects go straight to `publish_html`, otherwise
delegate to `display` with the `text/plain`/`text/html` include filter. -/
def display_html {α β : Type} (env : DisplayEnv α β) (objs : List α)
    (raw : Bool) : List (DispEvent α β) :=
  if raw then objs.map DispEvent.publishHtml
  else display env objs (some ["text/plain", "text/html"]) none

/-! ## The XML layer behind `SVG.data`

`SVG.data` runs its input through `minidom.parseString`, extracts the
first `svg` element in document order and stores its serialization
(`toxml`).  The XML library is modelled by an executable recursive
descent routine over `List Char` and a matching serializer: documents
are an optional processing instruction followed by one element; elements
carry attributes and mixed element/text children. -/

/-- Well-formed XML trees: elements with attributes and children, and
text runs. -/
inductive XNode where
  | elem (tag : String) (attrs : List (String × String)) (kids : List XNode)
  | text (s : String)

/-- Characters allowed in tag and attribute names. -/
def isNameChar (c : Char) : Bool :=
  c.isAlphanum || c = '-' || c = '_' || c = ':'

/-- XML whitespace. -/
def isSpaceChar (c : Char) : Bool :=
  c = ' ' || c = '\t' || c = '\n' || c = '\r'

/-- Characters that may appear in a text run. -/
def textChar (c : Char) : Bool :=
  !(c = '<') && !(c = '&')

/-- Characters that may appear in a quoted attribute value. -/
def attrValChar (c : Char) : Bool :=
  !(c = '"') && !(c = '<') && !(c = '&')

/-- Drop leading whitespace. -/
def skipWs (cs : List Char) : List Char :=
  cs.dropWhile isSpaceChar

/-- Serialize an attribute list, one leading space per attribute. -/
def serAttrsC : List (String × String) → List Char
  | [] => []
  | (n, v) :: r =>
    ' ' :: (n.data ++ '=' :: '"' :: (v.data ++ '"' :: serAttrsC r))

mutual

/-- Serialize a node (the model of minidom's `toxml` on a node):
self-closing form for childless elements. -/
def serNodeC : XNode → List Char
  | XNode.text s => s.data
  | XNode.elem t a kids =>
    match kids with
    | [] => '<' :: (t.data ++ (serAttrsC a ++ ['/', '>']))
    | _ :: _ =>
      '<' :: (t.data ++ (serAttrsC a ++ '>' ::
        (serKidsC kids ++ '<' :: '/' :: (t.data ++ ['>']))))

/-- Serialize a child list. -/
def serKidsC : List XNode → List Char
  | [] => []
  | k :: r => serNodeC k ++ serKidsC r

end

/-- `toxml` of a node, as a string. -/
def toxml (e : XNode) : String := String.mk (serNodeC e)

/-- Parse an attribute list; stops (leaving the input in place) at `/`
or `>`. The `fuel` argument bounds the recursion depth. -/
def parseAttrs (fuel : Nat) (cs : List Char) :
    Option (List (String × String) × List Char) :=
  match fuel with
  | 0 => none
  | fuel + 1 =>
    match skipWs cs with
    | [] => none
    | c :: cs2 =>
      if c = '/' || c = '>' then some ([], c :: cs2)
      else if isNameChar c then
        let nm := (c :: cs2).takeWhile isNameChar
        match (c :: cs2).dropWhile isNameChar with
        | c3 :: cs4 =>
          if c3 = '=' then
            match cs4 with
            | c4 :: cs5 =>
              if c4 = '"' then
                let v := cs5.takeWhile attrValChar
                match cs5.dropWhile attrValChar with
                | c5 :: cs7 =>
                  if c5 = '"' then
                    match parseAttrs fuel cs7 with
                    | none => none
                    | some (rest, r) =>
                      some ((String.mk nm, String.mk v) :: rest, r)
                  else none
                | [] => none
              else none
            | [] => none
          else none
        | [] => none
      else none

mutual

/-- Parse one element starting at `<`. -/
def parseElem (fuel : Nat) (cs : List Char) : Option (XNode × List Char) :=
  match fuel with
  | 0 => none
  | fuel + 1 =>
    match cs with
    | [] => none
    | c :: cs1 =>
      if c = '<' then
        let nm := cs1.takeWhile isNameChar
        let cs2 := cs1.dropWhile isNameChar
        if nm = [] then none
        else
          match parseAttrs fuel cs2 with
          | none => none
          | some (attrs, cs3) =>
            match cs3 with
            | [] => none
            | c3 :: cs4 =>
              if c3 = '/' then
                match cs4 with
                | [] => none
                | c4 :: cs5 =>
                  if c4 = '>' then some (XNode.elem (String.mk nm) attrs [], cs5)
                  else none
              else if c3 = '>' then
                match parseNodes fuel cs4 with
                | none => none
                | some (kids, cs5) =>
                  match cs5 with
                  | [] => none
                  | c5 :: cs6 =>
                    if c5 = '<' then
                      match cs6 with
                      | [] => none
                      | c6 :: cs7 =>
                        if c6 = '/' then
                          let nm2 := cs7.takeWhile isNameChar
                          let cs8 := cs7.dropWhile isNameChar
                          if nm2 = nm then
                            match skipWs cs8 with
                            | [] => none
                            | c8 :: cs9 =>
                              if c8 = '>' then
                                some (XNode.elem (String.mk nm) attrs kids, cs9)
                              else none
                          else none
                        else none
                    else none
              else none
      else none

/-- Parse a child sequence; stops at end of input or a closing tag. -/
def parseNodes (fuel : Nat) (cs : List Char) :
    Option (List XNode × List Char) :=
  match fuel with
  | 0 => none
  | fuel + 1 =>
    match cs with
    | [] => some ([], [])
    | c :: cs1 =>
      if c = '<' then
        match cs1 with
        | [] => none
        | c2 :: _ =>
          if c2 = '/' then some ([], c :: cs1)
          else
            match parseElem fuel (c :: cs1) with
            | none => none
            | some (e, r2) =>
              match parseNodes fuel r2 with
              | none => none
              | some (ns, r3) => some (e :: ns, r3)
      else if c = '&' then none
      else
        let t := (c :: cs1).takeWhile textChar
        let r2 := (c :: cs1).dropWhile textChar
        if r2.head? = some '&' then none
        else
          match parseNodes fuel r2 with
          | none => none
          | some (ns, r3) => some (XNode.text (String.mk t) :: ns, r3)

end

/-- Skip a processing instruction: drop everything through the first
`?>`. -/
def dropPI : List Char → Option (List Char)
  | [] => none
  | '?' :: '>' :: rest => some rest
  | _ :: rest => dropPI rest

/-- Parse a whole document body: one root element, then only trailing
whitespace. -/
def parseDoc (cs : List Char) : Option XNode :=
  match parseElem (2 * cs.length + 2) cs with
  | none => none
  | some (e, rest) => if skipWs rest = [] then some e else none

/-- The model of `minidom.parseString`: optional leading whitespace and
processing instruction, then the document body; `none` models a raised
parse error. -/
def parseString (s : String) : Option XNode :=
  match skipWs s.data with
  | '<' :: '?' :: rest =>
    match dropPI rest with
    | none => none
    | some cs2 => parseDoc (skipWs cs2)
  | cs => parseDoc cs

mutual

/-- `getElementsByTagName` on a node, in document order, the node itself
included (a document search reaches the root this way). -/
def elemsByTag (n : XNode) (tag : String) : List XNode :=
  match n with
  | XNode.text _ => []
  | XNode.elem t a kids =>
    (if t = tag then [XNode.elem t a kids] else []) ++ elemsListByTag kids tag

/-- `getElementsByTagName` over a child list. -/
def elemsListByTag : List XNode → String → List XNode
  | [], _ => []
  | k :: rest, tag => elemsByTag k tag ++ elemsListByTag rest tag

end

/-- The `SVG.data` property setter: parse, keep the serialization of the
first `svg` element, or fall back to the raw input when none is found;
a parse failure raises. -/
def SVG.setData (s : Option String) : Except PyError (Option String) :=
  match s with
  | none => .ok none
  | some str =>
    match parseString str with
    | none => .error PyError.xmlParseError
    | some root =>
      match elemsByTag root "svg" with
      | [] => .ok (some str)
      | e :: _ => .ok (some (toxml e))

/-- The URL branch of `reload` as executed by `SVG`: every assignment to
`self.data` runs the setter, and the whole block is wrapped in
`try/except` setting `data` to `None` on any failure. -/
def svgUrlData (env : Env) (u : String) : Option String :=
  match env.fetch u with
  | none => none
  | some resp =>
    match SVG.setData (some resp.body) with
    | .error _ => none
    | .ok d1 =>
      match resp.contentType with
      | none => none
      | some ct =>
        match extractEncoding ct with
        | none => d1
        | some enc =>
          if enc = "" then d1
          else
            match d1 with
            | none => none
            | some cur =>
              match env.decode enc cur with
              | none => none
              | some dec =>
                match SVG.setData (some dec) with
                | .error _ => none
                | .ok d2 => d2

/-- `reload` as executed on an `SVG` object whose stored data is `d0`:
file contents and fetched bodies pass through the setter. -/
def SVG.reloadModel (env : Env) (d0 : Option String)
    (url filename : Option String) : Except PyError (Option String) :=
  match filename with
  | some fn =>
    match env.readFile fn "r" with
    | none => .error PyError.ioError
    | some c => SVG.setData (some c)
  | none =>
    match url with
    | some u => .ok (svgUrlData env u)
    | none => .ok d0

/-- `SVG` construction, returning the stored `_data`: data that looks
like a URL goes to the url branch, anything else through the setter,
then `reload`. -/
def SVG.init (env : Env) (data url filename : Option String) :
    Except PyError (Option String) :=
  match data with
  | some d =>
    if pyStartsWith d "http" then SVG.reloadModel env none (some d) none
    else
      match SVG.setData (some d) with
      | .error e => .error e
      | .ok d0 => SVG.reloadModel env d0 url filename
  | none =>
    match SVG.setData none with
    | .error e => .error e
    | .ok d0 => SVG.reloadModel env d0 url filename

/-! ## Well-formedness and fuel measures for the XML model -/

/-- A valid tag or attribute name: nonempty, name characters only. -/
def validNameB (l : List Char) : Bool :=
  !l.isEmpty && l.all isNameChar

/-- A valid attribute pair. -/
def validAttrB (p : String × String) : Bool :=
  validNameB p.1.data && p.2.data.all attrValChar

/-- Adjacent sibling compatibility: two text runs never touch. -/
def headOk : XNode → List XNode → Bool
  | XNode.text _, XNode.text _ :: _ => false
  | _, _ => true

mutual

/-- Well-formed nodes: exactly the trees the reference routine can
produce, hence the trees whose serialization re-parses to themselves. -/
def wfNode : XNode → Bool
  | XNode.text s => !s.data.isEmpty && s.data.all textChar
  | XNode.elem t a kids => validNameB t.data && a.all validAttrB && wfList kids

/-- Well-formed child lists. -/
def wfList : List XNode → Bool
  | [] => true
  | k :: rest => wfNode k && headOk k rest && wfList rest

end

/-- Fuel needed by `parseAttrs`. -/
def measAttrs : List (String × String) → Nat
  | [] => 1
  | _ :: r => 1 + measAttrs r

mutual

/-- Fuel needed by `parseElem`. -/
def measNode : XNode → Nat
  | XNode.text _ => 1
  | XNode.elem _ a kids => 1 + measAttrs a + measKids kids

/-- Fuel needed by `parseNodes`. -/
def measKids : List XNode → Nat
  | [] => 1
  | k :: r => 1 + measNode k + measKids r

end

/-! ## Concrete environments used to instantiate the theorems -/

/-- An environment where every external operation succeeds. -/
def okEnv : Env :=
  ⟨fun _ _ => some "FILE", fun _ => some ⟨"BODY", some "text/html"⟩,
   fun _ _ => some "DEC"⟩

/-- An environment where every external operation fails. -/
def failEnv : Env :=
  ⟨fun _ _ => none, fun _ => none, fun _ _ => none⟩

/-- An environment whose response carries a charset the codec layer
rejects. -/
def badCharsetEnv : Env :=
  ⟨fun _ _ => none, fun _ => some ⟨"BODY", some "text/x; charset=bogus"⟩,
   fun _ _ => none⟩

/-- A trivial Formatter over naturals. -/
def natDEnv : DisplayEnv Nat Nat :=
  ⟨fun o _ _ => o⟩

/-! ## Properties of the display functions and the object constructors -/

/-- Helper: `Image.reload` never changes the `format` and `embed`
fields. -/
theorem Image.reload_fields (env : Env) (o img : ImageObj)
    (h : Image.reload env o = .ok img) :
    img.format = o.format ∧ img.embed = o.embed := by
  unfold Image.reload at h
  by_cases hb : o.embed = true
  · rw [if_pos hb] at h
    rcases hrel : DisplayObject.reload env Image.readFlags o.toDObj with e | d
    · rw [hrel] at h
      cases h
    · rw [hrel] at h
      cases h
      exact ⟨rfl, rfl⟩
  · rw [if_neg hb] at h
    cases h
    exact ⟨rfl, rfl⟩

/-- Helper: a successful `Image` construction stores the lowercased
resolved format and the embed flag forced by a filename. -/
theorem Image.init_ok_fields (env : Env) (data url filename : Option String)
    (fmt : String) (embed : Bool) (img : ImageObj) (ext : Option String)
    (hext : Image.extOf data url filename = .ok ext)
    (h : Image.init env data url filename fmt embed = .ok img) :
    img.format = pyLower (resolveFormat ext fmt)
    ∧ img.embed = (if filename.isSome then true else embed) := by
  unfold Image.init at h
  rw [hext] at h
  dsimp only at h
  exact Image.reload_fields env _ img h

/-- C1: a `DisplayObject` constructed with a non-None `data` string
beginning with `http` gets that string as its `url`, has `data` cleared
to `None` before the final `reload()`, and ends with `data` re-derived
by the URL fetch — in particular `data` is not the literal URL string
whenever the fetch does not itself produce that string. -/
theorem displayobject_http_data_becomes_url (env : Env) (d : String)
    (u f : Option String) (h : pyStartsWith d "http" = true) :
    DisplayObject.initState (some d) u f = ⟨none, some d, none⟩
    ∧ DisplayObject.init env (some d) u f = .ok ⟨urlFetch env d, some d, none⟩
    ∧ (urlFetch env d ≠ some d →
        ∀ o, DisplayObject.init env (some d) u f = .ok o → o.data ≠ some d) := by
  have hst : DisplayObject.initState (some d) u f = ⟨none, some d, none⟩ := by
    simp [DisplayObject.initState, h]
  have hin : DisplayObject.init env (some d) u f =
      .ok ⟨urlFetch env d, some d, none⟩ := by
    unfold DisplayObject.init
    rw [hst]
    rfl
  refine ⟨hst, hin, fun hne o ho => ?_⟩
  rw [hin] at ho
  cases ho
  exact hne

/-- Evidence for the C1 theorem at a concrete input: the fetched body is
stored, not the URL literal. -/
theorem displayobject_http_data_becomes_url_witness :
    (DisplayObject.initState (some "http://a/b") none none).data = none
    ∧ DisplayObject.init okEnv (some "http://a/b") none none =
        .ok ⟨some "BODY", some "http://a/b", none⟩
    ∧ ∀ o, DisplayObject.init okEnv (some "http://a/b") none none = .ok o →
        o.data ≠ some "http://a/b" := by
  have h := displayobject_http_data_becomes_url okEnv "http://a/b" none none
    (by decide)
  exact ⟨by rw [h.1], h.2.1, h.2.2 (by decide)⟩

/-- C3 counterexample: with filename `a.gif` and caller format `GIF`,
the stored format is the lowercased `gif`, not the caller-supplied
string, so the caller-supplied format does not stand verbatim. -/
theorem image_format_case_counterexample :
    Image.init okEnv none none (some "a.gif") "GIF" false =
      .ok ⟨some "FILE", none, some "a.gif", "gif", true⟩
    ∧ ("gif" : String) ≠ "GIF" := by
  constructor
  · rfl
  · decide

/-- C3 (amended): a recognized filename or url extension (`png`, `jpg`,
`jpeg`) overrides the caller-supplied format (`jpg`/`jpeg` map to
`jpeg`); any other extension leaves the caller-supplied format in force
up to the constructor's case-folding (the stored format is its
lowercasing); and a filename forces `embed` regardless of the caller. -/
theorem image_format_inference (env : Env) (data url filename : Option String)
    (fmt : String) (embed : Bool) (img : ImageObj)
    (h : Image.init env data url filename fmt embed = .ok img) :
    (∀ f, filename = some f →
      img.embed = true
      ∧ (findExt f = "png" → img.format = "png")
      ∧ (findExt f = "jpg" ∨ findExt f = "jpeg" → img.format = "jpeg")
      ∧ (findExt f ≠ "png" → findExt f ≠ "jpg" → findExt f ≠ "jpeg" →
          img.format = pyLower fmt))
    ∧ (∀ u, filename = none → url = some u →
      img.embed = embed
      ∧ (findExt u = "png" → img.format = "png")
      ∧ (findExt u = "jpg" ∨ findExt u = "jpeg" → img.format = "jpeg")
      ∧ (findExt u ≠ "png" → findExt u ≠ "jpg" → findExt u ≠ "jpeg" →
          img.format = pyLower fmt)) := by
  constructor
  · rintro f rfl
    obtain ⟨hfm, hem⟩ := Image.init_ok_fields env data url (some f) fmt embed
      img (some (findExt f)) rfl h
    refine ⟨by simpa using hem, ?_, ?_, ?_⟩
    · intro hpng
      rw [hfm, resolveFormat, hpng]
      rfl
    · rintro (hj | hj) <;> rw [hfm, resolveFormat, hj] <;> rfl
    · intro h1 h2 h3
      rw [hfm, resolveFormat]
      simp [h1, h2, h3]
  · rintro u rfl rfl
    obtain ⟨hfm, hem⟩ := Image.init_ok_fields env data (some u) none fmt embed
      img (some (findExt u)) rfl h
    refine ⟨by simpa using hem, ?_, ?_, ?_⟩
    · intro hpng
      rw [hfm, resolveFormat, hpng]
      rfl
    · rintro (hj | hj) <;> rw [hfm, resolveFormat, hj] <;> rfl
    · intro h1 h2 h3
      rw [hfm, resolveFormat]
      simp [h1, h2, h3]

/-- Evidence for the amended C3 theorem at a concrete input: a `.JPG`
filename yields format `jpeg` and forces `embed`. -/
theorem image_format_inference_witness :
    Image.init okEnv none none (some "photo.JPG") "png" false =
      .ok ⟨some "FILE", none, some "photo.JPG", "jpeg", true⟩
    ∧ (⟨some "FILE", none, some "photo.JPG", "jpeg", true⟩ : ImageObj).embed
        = true
    ∧ (⟨some "FILE", none, some "photo.JPG", "jpeg", true⟩ : ImageObj).format
        = "jpeg" := by
  have hinit : Image.init okEnv none none (some "photo.JPG") "png" false =
      .ok ⟨some "FILE", none, some "photo.JPG", "jpeg", true⟩ := by rfl
  have h := image_format_inference okEnv none none (some "photo.JPG") "png"
    false ⟨some "FILE", none, some "photo.JPG", "jpeg", true⟩ hinit
  obtain ⟨hem, _, hj, _⟩ := h.1 "photo.JPG" rfl
  exact ⟨hinit, hem, hj (Or.inl (by decide))⟩

/-- C4: with `raw` set, `display_html` sends each object verbatim to the
`publish_html` entry point and never consults the Formatter; without it,
it is exactly `display` with the `text/plain`/`text/html` include
filter, producing one Formatter call with that filter per object. -/
theorem display_html_raw_and_formatted {α β : Type} (env : DisplayEnv α β)
    (x : α) (objs : List α) :
    display_html env objs true = objs.map DispEvent.publishHtml
    ∧ (∀ e ∈ display_html env objs true, ∀ o incl excl,
        e ≠ DispEvent.formatCall o incl excl)
    ∧ display_html env objs false =
        display env objs (some ["text/plain", "text/html"]) none
    ∧ display_html env [x] false =
        [DispEvent.formatCall x (some ["text/plain", "text/html"]) none,
         DispEvent.publish "IPython.core.display.display"
           (env.format x (some ["text/plain", "text/html"]) none)] := by
  refine ⟨rfl, ?_, rfl, ?_⟩
  · intro e he o incl excl
    simp only [display_html, if_pos, List.mem_map] at he
    obtain ⟨a, _, rfl⟩ := he
    exact fun hcon => by cases hcon
  · simp [display_html, display]

/-- Evidence for the C4 theorem at a concrete input. -/
theorem display_html_raw_and_formatted_witness :
    display_html natDEnv [7] true = [DispEvent.publishHtml 7]
    ∧ display_html natDEnv [7] false =
        [DispEvent.formatCall 7 (some ["text/plain", "text/html"]) none,
         DispEvent.publish "IPython.core.display.display" 7] := by
  have h := display_html_raw_and_formatted natDEnv 7 [7]
  exact ⟨h.1, h.2.2.2⟩

/-- C5: with no filename and a url, `reload` never raises — it stores
the outcome of the guarded fetch — and every failure mode (fetch error,
missing content-type header, undecodable charset) leaves `data` as
`None` with no other signal. -/
theorem reload_swallows_fetch_failures (env : Env) (flags u : String)
    (o : DObj) (hf : o.filename = none) (hu : o.url = some u) :
    DisplayObject.reload env flags o = .ok { o with data := urlFetch env u }
    ∧ (env.fetch u = none → urlFetch env u = none)
    ∧ (∀ resp, env.fetch u = some resp → resp.contentType = none →
        urlFetch env u = none)
    ∧ (∀ resp ct enc, env.fetch u = some resp → resp.contentType = some ct →
        extractEncoding ct = some enc → enc ≠ "" →
        env.decode enc resp.body = none → urlFetch env u = none) := by
  refine ⟨?_, ?_, ?_, ?_⟩
  · unfold DisplayObject.reload
    rw [hf, hu]
  · intro hfe
    simp only [urlFetch, hfe]
  · intro resp hfe hct
    simp only [urlFetch, hfe, hct]
  · intro resp ct enc hfe hct henc hne hdec
    simp only [urlFetch, hfe, hct, henc, hdec, if_neg hne]

/-- Evidence for the C5 theorem at concrete inputs: a dead network and a
bogus charset both produce `.ok` with `data = None`. -/
theorem reload_swallows_fetch_failures_witness :
    DisplayObject.reload failEnv "r" ⟨some "old", some "http://u", none⟩ =
      .ok ⟨none, some "http://u", none⟩
    ∧ DisplayObject.reload badCharsetEnv "r" ⟨some "old", some "http://u", none⟩ =
      .ok ⟨none, some "http://u", none⟩ := by
  have h1 := reload_swallows_fetch_failures failEnv "r" "http://u"
    ⟨some "old", some "http://u", none⟩ rfl rfl
  have h2 := reload_swallows_fetch_failures badCharsetEnv "r" "http://u"
    ⟨some "old", some "http://u", none⟩ rfl rfl
  constructor
  · have hd : urlFetch failEnv "http://u" = none := h1.2.1 rfl
    have := h1.1
    rw [hd] at this
    exact this
  · have hd : urlFetch badCharsetEnv "http://u" = none :=
      h2.2.2.2 ⟨"BODY", some "text/x; charset=bogus"⟩ "text/x; charset=bogus"
        "bogus" rfl rfl (by rfl) (by decide) rfl
    have := h2.1
    rw [hd] at this
    exact this

/-- C6: an `Image` built from a url alone keeps the default `embed =
False`, its `reload` is the identity (no fetch), its `data` stays
`None`, and its HTML representation is the reference-style `<img>` tag
around the url. -/
theorem image_url_only_reference_style (env : Env) (u fmt : String) :
    ∃ img : ImageObj,
      Image.init env none (some u) none fmt false = .ok img
      ∧ img.embed = false ∧ img.data = none ∧ img.url = some u
      ∧ Image.reload env img = .ok img
      ∧ Image.reprHtml img = some ("<img src=\"" ++ u ++ "\" />") := by
  exact ⟨⟨none, some u, none, pyLower (resolveFormat (some (findExt u)) fmt),
    false⟩, rfl, rfl, rfl, rfl, rfl, rfl⟩

/-- C7: `reload` resolves its source deterministically — a filename wins
over any url and `data` becomes the file contents read with the caller's
mode flags (text `r` for `DisplayObject`, binary `rb` for `Image`);
with neither source set it returns the object unchanged. -/
theorem reload_filename_precedence (env : Env) (flags : String) (o : DObj) :
    (∀ f, o.filename = some f →
      DisplayObject.reload env flags o =
        (match env.readFile f flags with
         | none => .error PyError.ioError
         | some c => .ok { o with data := some c }))
    ∧ (o.filename = none → o.url = none →
        DisplayObject.reload env flags o = .ok o)
    ∧ DisplayObject.readFlags = "r" ∧ Image.readFlags = "rb" := by
  refine ⟨?_, ?_, rfl, rfl⟩
  · intro f hf
    unfold DisplayObject.reload
    rw [hf]
  · intro hf hu
    unfold DisplayObject.reload
    rw [hf, hu]

/-- Evidence for the C7 theorem at concrete inputs: the file contents
win over a url that would have fetched, and the no-source object is
untouched. -/
theorem reload_filename_precedence_witness :
    DisplayObject.reload okEnv "r" ⟨none, some "http://u", some "f.txt"⟩ =
      .ok ⟨some "FILE", some "http://u", some "f.txt"⟩
    ∧ DisplayObject.reload okEnv "r" ⟨some "x", none, none⟩ =
      .ok ⟨some "x", none, none⟩ := by
  have h := reload_filename_precedence okEnv "r"
    ⟨none, some "http://u", some "f.txt"⟩
  have h2 := reload_filename_precedence okEnv "r" ⟨some "x", none, none⟩
  exact ⟨h.1 "f.txt" rfl, h2.2.1 rfl rfl⟩

/-- C10: constructing an `Image` with `data`, `url` and `filename` all
`None` raises during extension inference (the attribute access on
`None`), so no object results. -/
theorem image_init_all_none_raises (env : Env) (fmt : String) (embed : Bool) :
    Image.init env none none none fmt embed = .error PyError.attributeError :=
  rfl

/-! ## List and character facts used by the XML round trip -/

theorem takeWhile_append_all {p : Char → Bool} {l1 : List Char}
    (l2 : List Char) (h : ∀ c ∈ l1, p c = true) :
    (l1 ++ l2).takeWhile p = l1 ++ l2.takeWhile p := by
  induction l1 with
  | nil => rfl
  | cons c l ih =>
    have hc : p c = true := h c (List.mem_cons_self c l)
    rw [List.cons_append, List.takeWhile_cons, if_pos hc,
      ih fun x hx => h x (List.mem_cons_of_mem c hx), List.cons_append]

theorem dropWhile_append_all {p : Char → Bool} {l1 : List Char}
    (l2 : List Char) (h : ∀ c ∈ l1, p c = true) :
    (l1 ++ l2).dropWhile p = l2.dropWhile p := by
  induction l1 with
  | nil => rfl
  | cons c l ih =>
    have hc : p c = true := h c (List.mem_cons_self c l)
    simp only [List.cons_append, List.dropWhile_cons, hc, if_true]
    exact ih fun x hx => h x (List.mem_cons_of_mem c hx)

theorem takeWhile_cons_neg {p : Char → Bool} {c : Char} (l : List Char)
    (h : p c = false) : (c :: l).takeWhile p = [] := by
  simp [List.takeWhile_cons, h]

theorem dropWhile_cons_neg {p : Char → Bool} {c : Char} (l : List Char)
    (h : p c = false) : (c :: l).dropWhile p = c :: l := by
  simp [List.dropWhile_cons, h]

/-- Splitting a name run: all of `t` matches, the next character does
not. -/
theorem name_split (t post : List Char) (c : Char)
    (ht : t.all isNameChar = true) (hc : isNameChar c = false) :
    (t ++ c :: post).takeWhile isNameChar = t
    ∧ (t ++ c :: post).dropWhile isNameChar = c :: post := by
  have hmem : ∀ x ∈ t, isNameChar x = true := List.all_eq_true.mp ht
  constructor
  · rw [takeWhile_append_all _ hmem, takeWhile_cons_neg _ hc,
      List.append_nil]
  · rw [dropWhile_append_all _ hmem, dropWhile_cons_neg _ hc]

/-- Splitting a run of any boolean class. -/
theorem run_split (p : Char → Bool) (t post : List Char) (c : Char)
    (ht : t.all p = true) (hc : p c = false) :
    (t ++ c :: post).takeWhile p = t
    ∧ (t ++ c :: post).dropWhile p = c :: post := by
  have hmem : ∀ x ∈ t, p x = true := List.all_eq_true.mp ht
  constructor
  · rw [takeWhile_append_all _ hmem, takeWhile_cons_neg _ hc,
      List.append_nil]
  · rw [dropWhile_append_all _ hmem, dropWhile_cons_neg _ hc]

theorem all_takeWhile (p : Char → Bool) (l : List Char) :
    (l.takeWhile p).all p = true := by
  induction l with
  | nil => rfl
  | cons c cs ih =>
    by_cases hc : p c = true
    · simp [List.takeWhile_cons, hc, ih]
    · simp [List.takeWhile_cons, Bool.of_not_eq_true hc]

theorem dropWhile_head_false {p : Char → Bool} {l r : List Char} {c : Char}
    (h : l.dropWhile p = c :: r) : p c = false := by
  induction l with
  | nil => cases h
  | cons a as ih =>
    by_cases ha : p a = true
    · rw [List.dropWhile_cons, if_pos ha] at h
      exact ih h
    · rw [List.dropWhile_cons, if_neg ha] at h
      cases h
      exact Bool.of_not_eq_true ha

theorem nameChar_props {c : Char} (h : isNameChar c = true) :
    c ≠ '<' ∧ c ≠ '/' ∧ c ≠ '>' ∧ c ≠ '=' ∧ c ≠ '?' ∧ c ≠ '&'
    ∧ isSpaceChar c = false := by
  have hs : isSpaceChar c = false := by
    by_contra hx
    rw [Bool.not_eq_false] at hx
    simp only [isSpaceChar, Bool.or_eq_true, decide_eq_true_eq] at hx
    have hd : c = ' ' ∨ c = '\t' ∨ c = '\n' ∨ c = '\r' := by tauto
    rcases hd with rfl | rfl | rfl | rfl <;> exact absurd h (by decide)
  refine ⟨?_, ?_, ?_, ?_, ?_, ?_, hs⟩ <;> rintro rfl <;>
    exact absurd h (by decide)

theorem textChar_props {c : Char} (h : textChar c = true) :
    c ≠ '<' ∧ c ≠ '&' := by
  simp only [textChar, Bool.and_eq_true, Bool.not_eq_true', decide_eq_false_iff_not]
    at h
  exact h

theorem attrValChar_props {c : Char} (h : attrValChar c = true) :
    c ≠ '"' ∧ c ≠ '<' ∧ c ≠ '&' := by
  simp only [attrValChar, Bool.and_eq_true, Bool.not_eq_true',
    decide_eq_false_iff_not] at h
  exact ⟨h.1.1, h.1.2, h.2⟩

theorem skipWs_cons_neg {c : Char} (l : List Char)
    (h : isSpaceChar c = false) : skipWs (c :: l) = c :: l :=
  dropWhile_cons_neg l h

theorem skipWs_cons_space (l : List Char) : skipWs (' ' :: l) = skipWs l := by
  simp only [skipWs, List.dropWhile_cons]
  rw [if_pos (by decide : isSpaceChar ' ' = true)]

theorem Str_eta (s : String) : String.mk s.data = s := rfl

/-- A valid (nonempty, name-character) name yields a cons. -/
theorem validName_cons {t : List Char} (h : validNameB t = true) :
    ∃ c cs, t = c :: cs ∧ isNameChar c = true ∧ t.all isNameChar = true := by
  simp only [validNameB, Bool.and_eq_true, Bool.not_eq_true'] at h
  obtain ⟨hne, hall⟩ := h
  cases t with
  | nil => exact absurd hne (by decide)
  | cons c cs =>
    exact ⟨c, cs, rfl, (List.all_eq_true.mp hall) c (List.mem_cons_self c cs),
      hall⟩

/-- Run splitting, stated on the cons normal form the parser sees. -/
theorem run_split_cons (p : Char → Bool) (c : Char) (cs post : List Char)
    (d : Char) (hall : (c :: cs).all p = true) (hd : p d = false) :
    (c :: (cs ++ d :: post)).takeWhile p = c :: cs
    ∧ (c :: (cs ++ d :: post)).dropWhile p = d :: post := by
  have h := run_split p (c :: cs) post d hall hd
  rw [List.cons_append] at h
  exact h

/-- Round trip for attribute lists: parsing the serialization of a
valid attribute list consumes it exactly and stops at the closing
delimiter character. -/
theorem parseAttrs_ser (a : List (String × String)) (stop : Char)
    (hs : stop = '/' ∨ stop = '>') :
    a.all validAttrB = true → ∀ rest fuel, measAttrs a ≤ fuel →
      parseAttrs fuel (serAttrsC a ++ stop :: rest) = some (a, stop :: rest) := by
  have hstopns : isSpaceChar stop = false := by
    rcases hs with rfl | rfl <;> decide
  have hstop : (stop = '/' || stop = '>') = true := by
    rcases hs with rfl | rfl <;> simp
  induction a with
  | nil =>
    intro _ rest fuel hfuel
    obtain ⟨f, rfl⟩ : ∃ f, fuel = f + 1 :=
      ⟨fuel - 1, by simp only [measAttrs] at hfuel; omega⟩
    simp only [serAttrsC, List.nil_append, parseAttrs,
      skipWs_cons_neg _ hstopns, hstop, if_true]
  | cons p r ih =>
    obtain ⟨n, v⟩ := p
    intro ha rest fuel hfuel
    obtain ⟨f, rfl⟩ : ∃ f, fuel = f + 1 :=
      ⟨fuel - 1, by simp only [measAttrs] at hfuel; omega⟩
    rw [List.all_cons, Bool.and_eq_true] at ha
    obtain ⟨hva, har⟩ := ha
    rw [validAttrB, Bool.and_eq_true] at hva
    obtain ⟨hn, hv⟩ := hva
    dsimp only at hn hv
    obtain ⟨c, cs, hcons, hcn, hall⟩ := validName_cons hn
    have hprops := nameChar_props hcn
    have hcns : isSpaceChar c = false := hprops.2.2.2.2.2.2
    have hcslash : (c = '/' || c = '>') = false := by
      simp only [Bool.or_eq_false_iff, decide_eq_false_iff_not]
      exact ⟨hprops.2.1, hprops.2.2.1⟩
    rw [hcons] at hall
    have hsplitn := run_split_cons isNameChar c cs
      ('"' :: (v.data ++ '"' :: (serAttrsC r ++ stop :: rest))) '=' hall
      (by decide)
    have hsplitv := run_split attrValChar v.data
      (serAttrsC r ++ stop :: rest) '"' hv (by decide)
    have hser : serAttrsC ((n, v) :: r) ++ stop :: rest =
        ' ' :: (c :: (cs ++ '=' :: '"' ::
          (v.data ++ '"' :: (serAttrsC r ++ stop :: rest)))) := by
      simp only [serAttrsC, hcons, List.cons_append, List.append_assoc]
    rw [hser]
    simp only [parseAttrs, skipWs_cons_space, skipWs_cons_neg _ hcns,
      hcslash, Bool.false_eq_true, if_false, hcn, if_true,
      hsplitn.1, hsplitn.2, hsplitv.1, hsplitv.2, reduceIte]
    rw [ih har rest f (by simp only [measAttrs] at hfuel; omega)]
    rw [← hcons, Str_eta, Str_eta]

/-- The serialization of an element always starts with `<` followed by
its tag. -/
theorem serNode_elem_shape (t : String) (a : List (String × String))
    (kids : List XNode) :
    ∃ X, serNodeC (XNode.elem t a kids) = '<' :: (t.data ++ X) := by
  cases kids with
  | nil => exact ⟨_, rfl⟩
  | cons k ks => exact ⟨_, rfl⟩

theorem wfNode_elem {t : String} {a : List (String × String)}
    {kids : List XNode} (h : wfNode (XNode.elem t a kids) = true) :
    validNameB t.data = true ∧ a.all validAttrB = true
    ∧ wfList kids = true := by
  rw [wfNode, Bool.and_eq_true, Bool.and_eq_true] at h
  exact ⟨h.1.1, h.1.2, h.2⟩

theorem wfNode_text {s : String} (h : wfNode (XNode.text s) = true) :
    (∃ c cs, s.data = c :: cs) ∧ s.data.all textChar = true := by
  rw [wfNode, Bool.and_eq_true, Bool.not_eq_true'] at h
  obtain ⟨hne, hall⟩ := h
  refine ⟨?_, hall⟩
  cases hd : s.data with
  | nil => rw [hd] at hne; exact absurd hne (by decide)
  | cons c cs => exact ⟨c, cs, rfl⟩

theorem wfList_cons {k : XNode} {r : List XNode}
    (h : wfList (k :: r) = true) :
    wfNode k = true ∧ headOk k r = true ∧ wfList r = true := by
  rw [wfList, Bool.and_eq_true, Bool.and_eq_true] at h
  exact ⟨h.1.1, h.1.2, h.2⟩

theorem validName_ne_nil {t : List Char} (h : validNameB t = true) :
    ¬ t = [] := by
  obtain ⟨c, cs, hcons, _, _⟩ := validName_cons h
  rw [hcons]
  exact fun hx => List.noConfusion hx

/-- The sibling after a text run in a well-formed list is an element. -/
theorem headOk_text {s : String} {k2 : XNode} {ks : List XNode}
    (h : headOk (XNode.text s) (k2 :: ks) = true) :
    ∃ t2 a2 kids2, k2 = XNode.elem t2 a2 kids2 := by
  cases k2 with
  | elem t2 a2 kids2 => exact ⟨t2, a2, kids2, rfl⟩
  | text s2 => exact absurd h (by rw [headOk]; simp)

/-- A name run followed by serialized attributes and a non-name
delimiter splits exactly at the end of the name. -/
theorem name_run_before_attrs (t : List Char) (ht : t.all isNameChar = true)
    (a : List (String × String)) (d : Char) (hd : isNameChar d = false)
    (tail : List Char) :
    (t ++ (serAttrsC a ++ d :: tail)).takeWhile isNameChar = t
    ∧ (t ++ (serAttrsC a ++ d :: tail)).dropWhile isNameChar =
        serAttrsC a ++ d :: tail := by
  cases a with
  | nil =>
    simpa only [serAttrsC, List.nil_append] using
      run_split isNameChar t tail d ht hd
  | cons p r =>
    obtain ⟨n0, v0⟩ := p
    have hshape : serAttrsC ((n0, v0) :: r) ++ d :: tail =
        ' ' :: (n0.data ++ '=' :: '"' ::
          (v0.data ++ '"' :: (serAttrsC r ++ d :: tail))) := by
      simp only [serAttrsC, List.cons_append, List.append_assoc]
    rw [hshape]
    exact run_split isNameChar t _ ' ' ht (by decide)

/-- Round trip for elements and child lists, by induction on the
parser fuel: parsing the serialization of well-formed trees (with any
continuation) returns exactly those trees. -/
theorem parse_roundtrip (fuel : Nat) :
    (∀ t a kids, wfNode (XNode.elem t a kids) = true →
      ∀ rest, measNode (XNode.elem t a kids) ≤ fuel →
      parseElem fuel (serNodeC (XNode.elem t a kids) ++ rest) =
        some (XNode.elem t a kids, rest))
    ∧ (∀ kids, wfList kids = true →
      ∀ rest, (rest = [] ∨ ∃ r2, rest = '<' :: '/' :: r2) →
      measKids kids ≤ fuel →
      parseNodes fuel (serKidsC kids ++ rest) = some (kids, rest)) := by
  induction fuel with
  | zero =>
    constructor
    · intro t a kids _ rest hfuel
      exact absurd hfuel (by simp only [measNode]; omega)
    · intro kids _ rest _ hfuel
      exact absurd hfuel
        (by cases kids <;> simp only [measKids] <;> omega)
  | succ f ih =>
    constructor
    · intro t a kids hwf rest hfuel
      obtain ⟨hname, hattrs, hkids⟩ := wfNode_elem hwf
      have hnamerun : t.data.all isNameChar = true :=
        (validName_cons hname).choose_spec.choose_spec.2.2
      have hnm_ne : ¬ t.data = [] := validName_ne_nil hname
      cases kids with
      | nil =>
        have hser : serNodeC (XNode.elem t a []) ++ rest =
            '<' :: (t.data ++ (serAttrsC a ++ '/' :: '>' :: rest)) := by
          simp only [serNodeC, List.cons_append, List.append_assoc,
            List.nil_append]
        have hsplit := name_run_before_attrs t.data hnamerun a '/'
          (by decide) ('>' :: rest)
        have hattr := parseAttrs_ser a '/' (Or.inl rfl) hattrs ('>' :: rest)
          f (by simp only [measNode, measKids] at hfuel; omega)
        rw [hser]
        simp only [parseElem, reduceIte, hsplit.1, hsplit.2, if_neg hnm_ne,
          hattr, Str_eta]
      | cons k ks =>
        have hser : serNodeC (XNode.elem t a (k :: ks)) ++ rest =
            '<' :: (t.data ++ (serAttrsC a ++ '>' ::
              (serKidsC (k :: ks) ++
                '<' :: '/' :: (t.data ++ '>' :: rest)))) := by
          simp only [serNodeC, List.cons_append, List.append_assoc,
            List.nil_append]
        have hsplit := name_run_before_attrs t.data hnamerun a '>'
          (by decide)
          (serKidsC (k :: ks) ++ '<' :: '/' :: (t.data ++ '>' :: rest))
        have hsplit2 := run_split isNameChar t.data rest '>' hnamerun
          (by decide)
        have hattr := parseAttrs_ser a '>' (Or.inr rfl) hattrs
          (serKidsC (k :: ks) ++ '<' :: '/' :: (t.data ++ '>' :: rest)) f
          (by simp only [measNode, measKids] at hfuel; omega)
        have hkid := ih.2 (k :: ks) hkids
          ('<' :: '/' :: (t.data ++ '>' :: rest)) (Or.inr ⟨_, rfl⟩)
          (by simp only [measNode] at hfuel; omega)
        rw [hser]
        simp only [parseElem, reduceIte, hsplit.1, hsplit.2, if_neg hnm_ne,
          hattr, if_neg (show ¬ ('>' : Char) = '/' by decide), hkid,
          hsplit2.1, hsplit2.2,
          skipWs_cons_neg _ (show isSpaceChar '>' = false by decide),
          eq_self_iff_true, if_true, Str_eta]
    · intro kids hwf rest hrest hfuel
      cases kids with
      | nil =>
        rcases hrest with rfl | ⟨r2, rfl⟩
        · rfl
        · rfl
      | cons k ks =>
        obtain ⟨hkwf, hhead, hkswf⟩ := wfList_cons hwf
        cases k with
        | elem t2 a2 kids2 =>
          obtain ⟨X, hX⟩ := serNode_elem_shape t2 a2 kids2
          obtain ⟨c2, cs2, hcons2, hcn2, _⟩ :=
            validName_cons (wfNode_elem hkwf).1
          have hne2 : ¬ (c2 = '/') := (nameChar_props hcn2).2.1
          have hser : serKidsC (XNode.elem t2 a2 kids2 :: ks) ++ rest =
              '<' :: (c2 :: (cs2 ++ (X ++ (serKidsC ks ++ rest)))) := by
            simp only [serKidsC, hX, hcons2, List.cons_append,
              List.append_assoc]
          have helem := ih.1 t2 a2 kids2 hkwf (serKidsC ks ++ rest)
            (by simp only [measKids] at hfuel; omega)
          rw [hX, hcons2] at helem
          simp only [List.cons_append, List.append_assoc] at helem
          have hih := ih.2 ks hkswf rest hrest
            (by simp only [measKids] at hfuel; omega)
          rw [hser]
          simp only [parseNodes, reduceIte, if_neg hne2, helem, hih]
        | text s =>
          obtain ⟨⟨c, cs, hconsS⟩, halltext⟩ := wfNode_text hkwf
          have hct : textChar c = true := by
            have := List.all_eq_true.mp halltext c
            rw [hconsS] at this
            exact this (List.mem_cons_self c cs)
          have hcprops := textChar_props hct
          have hallcons : (c :: cs).all textChar = true := by
            rw [← hconsS]; exact halltext
          have hseq : String.mk (c :: cs) = s := by rw [← hconsS]
          have hih := ih.2 ks hkswf rest hrest
            (by simp only [measKids, measNode] at hfuel; omega)
          rcases hks : serKidsC ks ++ rest with _ | ⟨d, tl⟩
          · have hser : serKidsC (XNode.text s :: ks) ++ rest =
                c :: (cs ++ []) := by
              simp only [serKidsC, serNodeC, hconsS, List.cons_append,
                List.append_assoc, hks, List.append_nil]
            have hsplitT : (c :: (cs ++ [])).takeWhile textChar = c :: cs ∧
                (c :: (cs ++ [])).dropWhile textChar = [] := by
              constructor
              · rw [List.append_nil, List.takeWhile_cons, if_pos hct,
                  List.takeWhile_eq_self_iff.mpr]
                exact fun x hx => (List.all_eq_true.mp hallcons) x
                  (List.mem_cons_of_mem c hx)
              · rw [List.append_nil, List.dropWhile_cons, if_pos hct,
                  List.dropWhile_eq_nil_iff.mpr]
                exact fun x hx => (List.all_eq_true.mp hallcons) x
                  (List.mem_cons_of_mem c hx)
            rw [hks] at hih
            rw [hser]
            simp only [parseNodes, reduceIte, hsplitT.1, hsplitT.2,
              if_neg hcprops.1, if_neg hcprops.2, List.head?_nil, hih, hseq]
            rw [if_neg (by decide : ¬ (none : Option Char) = some '&')]
          · have hd : d = '<' := by
              cases ks with
              | nil =>
                rcases hrest with rfl | ⟨r2, hr2⟩
                · rw [serKidsC, List.nil_append] at hks; cases hks
                · rw [serKidsC, List.nil_append, hr2] at hks
                  cases hks; rfl
              | cons k2 ks2 =>
                obtain ⟨t3, a3, kids3, rfl⟩ := headOk_text hhead
                obtain ⟨X3, hX3⟩ := serNode_elem_shape t3 a3 kids3
                rw [serKidsC, hX3] at hks
                simp only [List.cons_append] at hks
                cases hks; rfl
            subst hd
            have hser : serKidsC (XNode.text s :: ks) ++ rest =
                c :: (cs ++ '<' :: tl) := by
              simp only [serKidsC, serNodeC, hconsS, List.cons_append,
                List.append_assoc, hks]
            have hsplitT := run_split_cons textChar c cs tl '<' hallcons
              (by decide)
            rw [hks] at hih
            rw [hser]
            simp only [parseNodes, reduceIte, hsplitT.1, hsplitT.2,
              if_neg hcprops.1, if_neg hcprops.2, List.head?_cons, hih, hseq]
            rw [if_neg (by decide : ¬ (some '<' : Option Char) = some '&')]

theorem isEmpty_false_of_ne {l : List Char} (h : ¬ l = []) :
    l.isEmpty = false := by
  cases l with
  | nil => exact absurd rfl h
  | cons a as => rfl

theorem validNameB_of {l : List Char} (h : ¬ l = [])
    (h2 : l.all isNameChar = true) : validNameB l = true := by
  rw [validNameB, Bool.and_eq_true, Bool.not_eq_true']
  exact ⟨isEmpty_false_of_ne h, h2⟩

theorem wfNode_elem_of (t : String) (a : List (String × String))
    (kids : List XNode) (h1 : validNameB t.data = true)
    (h2 : a.all validAttrB = true) (h3 : wfList kids = true) :
    wfNode (XNode.elem t a kids) = true := by
  rw [wfNode, Bool.and_eq_true, Bool.and_eq_true]
  exact ⟨⟨h1, h2⟩, h3⟩

theorem wfList_cons_of (k : XNode) (r : List XNode) (h1 : wfNode k = true)
    (h2 : headOk k r = true) (h3 : wfList r = true) :
    wfList (k :: r) = true := by
  rw [wfList, Bool.and_eq_true, Bool.and_eq_true]
  exact ⟨⟨h1, h2⟩, h3⟩

theorem wfNode_text_of (s : String) (c : Char) (cs : List Char)
    (hcons : s.data = c :: cs) (h2 : s.data.all textChar = true) :
    wfNode (XNode.text s) = true := by
  rw [wfNode, Bool.and_eq_true, Bool.not_eq_true']
  refine ⟨?_, h2⟩
  rw [hcons]
  rfl

/-- Everything the attribute routine accepts is a valid attribute
list. -/
theorem parseAttrs_wf (fuel : Nat) :
    ∀ cs a rest, parseAttrs fuel cs = some (a, rest) →
      a.all validAttrB = true := by
  induction fuel with
  | zero => intro cs a rest h; cases h
  | succ f ih =>
    intro cs a rest h
    simp only [parseAttrs] at h
    split at h
    case h_1 => cases h
    case h_2 c cs2 =>
      split at h
      case isTrue =>
        cases h
        rfl
      case isFalse =>
        split at h
        case isFalse => cases h
        case isTrue hnamec =>
          split at h
          case h_2 => cases h
          case h_1 c3 cs4 heq3 =>
            split at h
            case isFalse => cases h
            case isTrue hc3 =>
              split at h
              case h_2 => cases h
              case h_1 c4 cs5 heq4 =>
                split at h
                case isFalse => cases h
                case isTrue hc4 =>
                  split at h
                  case h_2 => cases h
                  case h_1 c5 cs7 heq5 =>
                    split at h
                    case isFalse => cases h
                    case isTrue hc5 =>
                      split at h
                      case h_1 => cases h
                      case h_2 restA r hrec =>
                        cases h
                        rw [List.all_cons, Bool.and_eq_true]
                        refine ⟨?_, ih _ _ _ hrec⟩
                        rw [validAttrB, Bool.and_eq_true]
                        constructor
                        · apply validNameB_of
                          · rw [List.takeWhile_cons, if_pos hnamec]
                            exact fun hx => List.noConfusion hx
                          · exact all_takeWhile _ _
                        · exact all_takeWhile _ _

/-- Everything the parser accepts is well formed: elements have valid
names and attributes, text runs are nonempty with text characters only,
and no two text siblings touch. -/
theorem parse_wf (fuel : Nat) :
    (∀ cs e rest, parseElem fuel cs = some (e, rest) →
      wfNode e = true ∧ ∃ t a kids, e = XNode.elem t a kids)
    ∧ (∀ cs ns rest, parseNodes fuel cs = some (ns, rest) →
      wfList ns = true
      ∧ ∀ s tl, ns = XNode.text s :: tl →
          ∃ c cs2, cs = c :: cs2 ∧ textChar c = true) := by
  induction fuel with
  | zero =>
    constructor
    · intro cs e rest h; cases h
    · intro cs ns rest h; cases h
  | succ f ih =>
    constructor
    · intro cs e rest h
      simp only [parseElem] at h
      split at h
      case h_1 => cases h
      case h_2 c cs1 =>
        split at h
        case isFalse => cases h
        case isTrue hc =>
          split at h
          case isTrue => cases h
          case isFalse hnm =>
            split at h
            case h_1 => cases h
            case h_2 attrs cs3 hattrsEq =>
              split at h
              case h_1 => cases h
              case h_2 c3 cs4 =>
                split at h
                case isTrue hc3 =>
                  split at h
                  case h_1 => cases h
                  case h_2 c4 cs5 =>
                    split at h
                    case isFalse => cases h
                    case isTrue hc4 =>
                      cases h
                      constructor
                      · apply wfNode_elem_of
                        · exact validNameB_of hnm (all_takeWhile _ _)
                        · exact parseAttrs_wf f _ _ _ hattrsEq
                        · rfl
                      · exact ⟨_, _, _, rfl⟩
                case isFalse hc3ne =>
                  split at h
                  case isFalse => cases h
                  case isTrue hc3 =>
                    split at h
                    case h_1 => cases h
                    case h_2 kids cs5 hkidsEq =>
                      split at h
                      case h_1 => cases h
                      case h_2 c5 cs6 =>
                        split at h
                        case isFalse => cases h
                        case isTrue hc5 =>
                          split at h
                          case h_1 => cases h
                          case h_2 c6 cs7 =>
                            split at h
                            case isFalse => cases h
                            case isTrue hc6 =>
                              split at h
                              case isFalse => cases h
                              case isTrue hnm2 =>
                                split at h
                                case h_1 => cases h
                                case h_2 c8 cs9 hskipEq =>
                                  split at h
                                  case isFalse => cases h
                                  case isTrue hc8 =>
                                    cases h
                                    constructor
                                    · apply wfNode_elem_of
                                      · exact validNameB_of hnm
                                          (all_takeWhile _ _)
                                      · exact parseAttrs_wf f _ _ _
                                          hattrsEq
                                      · exact (ih.2 _ _ _ hkidsEq).1
                                    · exact ⟨_, _, _, rfl⟩
    · intro cs ns rest h
      simp only [parseNodes] at h
      split at h
      case h_1 =>
        cases h
        exact ⟨rfl, fun s tl hx => absurd hx (by simp)⟩
      case h_2 c cs1 =>
        split at h
        case isTrue hc =>
          split at h
          case h_1 => cases h
          case h_2 c2 cs2 =>
            split at h
            case isTrue hc2 =>
              cases h
              exact ⟨rfl, fun s tl hx => absurd hx (by simp)⟩
            case isFalse hc2 =>
              split at h
              case h_1 => cases h
              case h_2 e2 r2 helemEq =>
                split at h
                case h_1 => cases h
                case h_2 ns2 r3 hnodesEq =>
                  cases h
                  obtain ⟨hwfe, t2, a2, kids2, rfl⟩ :=
                    ih.1 _ _ _ helemEq
                  have hrec := ih.2 _ _ _ hnodesEq
                  constructor
                  · refine wfList_cons_of _ _ hwfe ?_ hrec.1
                    cases ns2 with
                    | nil => rfl
                    | cons k2 tl2 => cases k2 <;> rfl
                  · intro s tl hx
                    injection hx with h1 h2
                    exact XNode.noConfusion h1
        case isFalse hc =>
          split at h
          case isTrue => cases h
          case isFalse hcamp =>
            split at h
            case isTrue => cases h
            case isFalse hdropAmp =>
              split at h
              case h_1 => cases h
              case h_2 ns2 r3 hnodesEq =>
                cases h
                have hrec := ih.2 _ _ _ hnodesEq
                have hctext : textChar c = true := by
                  simp only [textChar, Bool.and_eq_true, Bool.not_eq_true',
                    decide_eq_false_iff_not]
                  exact ⟨hc, hcamp⟩
                have htake : List.takeWhile textChar (c :: cs1) =
                    c :: List.takeWhile textChar cs1 := by
                  rw [List.takeWhile_cons, if_pos hctext]
                constructor
                · refine wfList_cons_of _ _ ?_ ?_ hrec.1
                  · exact wfNode_text_of _ c (List.takeWhile textChar cs1)
                      htake (all_takeWhile _ _)
                  · cases hns2 : ns2 with
                    | nil => rfl
                    | cons k2 tl2 =>
                      cases k2 with
                      | elem _ _ _ => rfl
                      | text s2 =>
                        obtain ⟨c2, cs2x, hr2, hc2⟩ :=
                          hrec.2 s2 tl2 (by rw [hns2])
                        have hfalse := dropWhile_head_false hr2
                        rw [hc2] at hfalse
                        cases hfalse
                · intro s tl hx
                  exact ⟨c, cs1, rfl, hctext⟩

/-- Round trip for a single well-formed element. -/
theorem parseElem_ser (t : String) (a : List (String × String))
    (kids : List XNode) (hwf : wfNode (XNode.elem t a kids) = true)
    (rest : List Char) (fuel : Nat)
    (hfuel : measNode (XNode.elem t a kids) ≤ fuel) :
    parseElem fuel (serNodeC (XNode.elem t a kids) ++ rest) =
      some (XNode.elem t a kids, rest) :=
  (parse_roundtrip fuel).1 t a kids hwf rest hfuel

theorem serAttrs_len (a : List (String × String)) :
    measAttrs a ≤ (serAttrsC a).length + 1 := by
  induction a with
  | nil => simp [measAttrs, serAttrsC]
  | cons p r ih =>
    obtain ⟨n, v⟩ := p
    simp only [measAttrs, serAttrsC, List.length_cons, List.length_append]
    omega

/-- The parser fuel needed by a well-formed tree is bounded by twice the
length of its serialization. -/
theorem meas_bound (n : Nat) :
    (∀ e, measNode e ≤ n → wfNode e = true →
      measNode e < 2 * (serNodeC e).length)
    ∧ (∀ l, measKids l ≤ n → wfList l = true →
      measKids l ≤ 2 * (serKidsC l).length + 1) := by
  induction n with
  | zero =>
    constructor
    · intro e h0 _
      exact absurd h0 (by cases e <;> simp only [measNode] <;> omega)
    · intro l h0 _
      exact absurd h0 (by cases l <;> simp only [measKids] <;> omega)
  | succ n ih =>
    constructor
    · intro e he hwf
      cases e with
      | text s =>
        obtain ⟨⟨c, cs, hcons⟩, _⟩ := wfNode_text hwf
        simp only [measNode, serNodeC, hcons, List.length_cons]
        omega
      | elem t a kids =>
        have hA := serAttrs_len a
        obtain ⟨_, _, hkids⟩ := wfNode_elem hwf
        cases kids with
        | nil =>
          simp only [measNode, measKids, serNodeC, List.length_cons,
            List.length_append] at he ⊢
          omega
        | cons k ks =>
          have hK := ih.2 (k :: ks)
            (by simp only [measNode, measKids] at he ⊢; omega) hkids
          simp only [measNode, measKids, serNodeC, List.length_cons,
            List.length_append] at he hK ⊢
          omega
    · intro l hl hwf
      cases l with
      | nil => simp [measKids, serKidsC]
      | cons k ks =>
        obtain ⟨hkwf, _, hkswf⟩ := wfList_cons hwf
        have hN := ih.1 k
          (by simp only [measKids] at hl ⊢; omega) hkwf
        have hK := ih.2 ks
          (by simp only [measKids] at hl ⊢; omega) hkswf
        simp only [measKids, serKidsC, List.length_append] at hl hN hK ⊢
        omega

/-- Facts about `getElementsByTagName`: every hit is an element carrying
the requested tag, and hits inside well-formed trees are well formed. -/
theorem elems_facts (n : Nat) :
    (∀ e, measNode e ≤ n → ∀ tag x, x ∈ elemsByTag e tag →
      (∃ a kids, x = XNode.elem tag a kids)
      ∧ (wfNode e = true → wfNode x = true))
    ∧ (∀ l, measKids l ≤ n → ∀ tag x, x ∈ elemsListByTag l tag →
      (∃ a kids, x = XNode.elem tag a kids)
      ∧ (wfList l = true → wfNode x = true)) := by
  induction n with
  | zero =>
    constructor
    · intro e h0
      exact absurd h0 (by cases e <;> simp only [measNode] <;> omega)
    · intro l h0
      exact absurd h0 (by cases l <;> simp only [measKids] <;> omega)
  | succ n ih =>
    constructor
    · intro e he tag x hx
      cases e with
      | text s => simp [elemsByTag] at hx
      | elem t a kids =>
        rw [elemsByTag, List.mem_append] at hx
        rcases hx with hx | hx
        · by_cases htag : t = tag
          · rw [if_pos htag, List.mem_singleton] at hx
            subst hx
            exact ⟨⟨a, kids, by rw [htag]⟩, fun hw => hw⟩
          · rw [if_neg htag] at hx
            simp at hx
        · have hrec := (ih.2 kids
            (by simp only [measNode] at he; omega) tag x hx)
          exact ⟨hrec.1, fun hw => hrec.2 (wfNode_elem hw).2.2⟩
    · intro l hl tag x hx
      cases l with
      | nil => simp [elemsListByTag] at hx
      | cons k ks =>
        rw [elemsListByTag, List.mem_append] at hx
        rcases hx with hx | hx
        · have hrec := ih.1 k
            (by simp only [measKids] at hl; omega) tag x hx
          exact ⟨hrec.1, fun hw => hrec.2 (wfList_cons hw).1⟩
        · have hrec := ih.2 ks
            (by simp only [measKids] at hl; omega) tag x hx
          exact ⟨hrec.1, fun hw => hrec.2 (wfList_cons hw).2.2⟩

/-- An element parser input not beginning with `<` never parses. -/
theorem parseElem_not_lt (fuel : Nat) (c : Char) (cs : List Char)
    (h : ¬ c = '<') : parseElem fuel (c :: cs) = none := by
  cases fuel with
  | zero => rfl
  | succ f => simp only [parseElem, if_neg h]

/-- Parsing the serialization of a well-formed element as a whole
document returns exactly that element. -/
theorem parseDoc_ser (t : String) (a : List (String × String))
    (kids : List XNode) (hwf : wfNode (XNode.elem t a kids) = true) :
    parseDoc (serNodeC (XNode.elem t a kids)) =
      some (XNode.elem t a kids) := by
  have hb : measNode (XNode.elem t a kids) ≤
      2 * (serNodeC (XNode.elem t a kids)).length + 2 := by
    have := (meas_bound (measNode (XNode.elem t a kids))).1 _ (le_refl _) hwf
    omega
  have hparse := parseElem_ser t a kids hwf [] _ hb
  rw [List.append_nil] at hparse
  unfold parseDoc
  rw [hparse]
  rfl

/-- A successfully parsed document is a well-formed element. -/
theorem parseDoc_wf {cs : List Char} {root : XNode}
    (hp : parseDoc cs = some root) :
    wfNode root = true ∧ ∃ t a kids, root = XNode.elem t a kids := by
  unfold parseDoc at hp
  split at hp
  case h_1 => cases hp
  case h_2 e rest heq =>
    split at hp
    · cases hp
      exact (parse_wf _).1 _ _ _ heq
    · cases hp

/-- A successfully parsed string is a well-formed element. -/
theorem parseString_wf {s : String} {root : XNode}
    (hp : parseString s = some root) :
    wfNode root = true ∧ ∃ t a kids, root = XNode.elem t a kids := by
  unfold parseString at hp
  split at hp
  · split at hp
    case h_1 => cases hp
    case h_2 => exact parseDoc_wf hp
  · exact parseDoc_wf hp

/-- A string that starts with `http` can never be parsed as XML. -/
theorem parseString_of_http {s : String}
    (hp : pyStartsWith s "http" = true) : parseString s = none := by
  obtain ⟨tl, hdata⟩ : ∃ tl, s.data = 'h' :: 't' :: 't' :: 'p' :: tl := by
    rw [pyStartsWith] at hp
    obtain ⟨tl, htl⟩ := List.isPrefixOf_iff_prefix.mp hp
    exact ⟨tl, by rw [← htl]; rfl⟩
  unfold parseString
  rw [hdata, skipWs_cons_neg _ (by decide)]
  show parseDoc ('h' :: 't' :: 't' :: 'p' :: tl) = none
  unfold parseDoc
  rw [parseElem_not_lt _ _ _ (by decide : ¬ ('h' : Char) = '<')]

/-- Parsing the `toxml` serialization of a well-formed `svg` element
recovers exactly that element. -/
theorem parseString_svg_toxml (a : List (String × String))
    (kids : List XNode)
    (hwf : wfNode (XNode.elem "svg" a kids) = true) :
    parseString (toxml (XNode.elem "svg" a kids)) =
      some (XNode.elem "svg" a kids) := by
  obtain ⟨X, hX⟩ := serNode_elem_shape "svg" a kids
  have hX2 : serNodeC (XNode.elem "svg" a kids) =
      '<' :: 's' :: 'v' :: 'g' :: X := by
    rw [hX]
    rfl
  have h1 : toxml (XNode.elem "svg" a kids) =
      String.mk ('<' :: 's' :: 'v' :: 'g' :: X) := by
    unfold toxml
    rw [hX2]
  rw [h1]
  show parseDoc ('<' :: 's' :: 'v' :: 'g' :: X) =
    some (XNode.elem "svg" a kids)
  rw [← hX2]
  exact parseDoc_ser "svg" a kids hwf

/-- Helper: a string that parses successfully cannot start with
`http`. -/
theorem parse_some_not_http {s : String} {root : XNode}
    (hp : parseString s = some root) : pyStartsWith s "http" = false := by
  cases hb : pyStartsWith s "http"
  · rfl
  · rw [parseString_of_http hb] at hp
    cases hp

/-- C2: an `SVG` built from a string that parses as XML with exactly one
`svg` element stores the serialization of that element alone, and the
stored string is a fixed point of the setter: re-parsing it yields the
identical string. -/
theorem svg_single_element_normalization (env : Env) (s : String)
    (root e : XNode) (hp : parseString s = some root)
    (he : elemsByTag root "svg" = [e]) :
    SVG.init env (some s) none none = .ok (some (toxml e))
    ∧ SVG.setData (some (toxml e)) = .ok (some (toxml e)) := by
  have hwfroot := (parseString_wf hp).1
  have hmem : e ∈ elemsByTag root "svg" := by
    rw [he]
    exact List.mem_singleton.mpr rfl
  obtain ⟨⟨a, kids, rfl⟩, hwfe'⟩ :=
    (elems_facts (measNode root)).1 root (le_refl _) "svg" e hmem
  have hwfe := hwfe' hwfroot
  have hset : SVG.setData (some s) =
      .ok (some (toxml (XNode.elem "svg" a kids))) := by
    simp only [SVG.setData, hp, he]
  have hhttp := parse_some_not_http hp
  constructor
  · simp only [SVG.init, hhttp, Bool.false_eq_true, if_false, hset,
      SVG.reloadModel]
  · have hparse2 := parseString_svg_toxml a kids hwfe
    have helems : elemsByTag (XNode.elem "svg" a kids) "svg" =
        XNode.elem "svg" a kids :: elemsListByTag kids "svg" := by
      rw [elemsByTag, if_pos rfl]
      rfl
    simp only [SVG.setData, hparse2, helems]

/-- Evidence for the C2 theorem at a concrete input: declaration and
wrapper are discarded, and the stored `svg` serialization re-parses to
itself byte for byte. -/
theorem svg_single_element_normalization_witness :
    SVG.init okEnv
      (some "<?xml version=\"1.0\"?><div><svg width=\"3\">hi</svg></div>")
      none none = .ok (some "<svg width=\"3\">hi</svg>")
    ∧ SVG.setData (some "<svg width=\"3\">hi</svg>") =
        .ok (some "<svg width=\"3\">hi</svg>") := by
  have h := svg_single_element_normalization okEnv
    "<?xml version=\"1.0\"?><div><svg width=\"3\">hi</svg></div>"
    (XNode.elem "div" []
      [XNode.elem "svg" [("width", "3")] [XNode.text "hi"]])
    (XNode.elem "svg" [("width", "3")] [XNode.text "hi"]) rfl rfl
  have ht : toxml (XNode.elem "svg" [("width", "3")] [XNode.text "hi"]) =
      "<svg width=\"3\">hi</svg>" := rfl
  rw [ht] at h
  exact h

/-- C8: an `SVG` built from a string that parses as XML but contains no
`svg` element stores the original input unchanged. -/
theorem svg_no_svg_keeps_raw (env : Env) (s : String) (root : XNode)
    (hp : parseString s = some root)
    (hnone : elemsByTag root "svg" = []) :
    SVG.init env (some s) none none = .ok (some s) := by
  have hset : SVG.setData (some s) = .ok (some s) := by
    simp only [SVG.setData, hp, hnone]
  have hhttp := parse_some_not_http hp
  simp only [SVG.init, hhttp, Bool.false_eq_true, if_false, hset,
    SVG.reloadModel]

/-- Evidence for the C8 theorem at a concrete input. -/
theorem svg_no_svg_keeps_raw_witness :
    SVG.init okEnv (some "<html>x</html>") none none =
      .ok (some "<html>x</html>") :=
  svg_no_svg_keeps_raw okEnv "<html>x</html>"
    (XNode.elem "html" [] [XNode.text "x"]) rfl rfl

/-- C9 counterexample: the input `httpX` cannot be parsed as XML, yet
the constructor does not raise — it treats the string as a URL and
swallows the failed fetch, yielding an object with `data = None`; only
the bare setter raises. -/
theorem svg_http_input_no_raise :
    parseString "httpX" = none
    ∧ SVG.init failEnv (some "httpX") none none = .ok none
    ∧ SVG.setData (some "httpX") = .error PyError.xmlParseError :=
  ⟨rfl, rfl, rfl⟩

/-- C9 (amended): for every non-None input that cannot be parsed as XML,
the data setter raises the parse failure; the constructor does so too
for every such `data` input that does not begin with `http` (inputs
beginning with `http` are diverted to the URL branch and never
parsed). -/
theorem svg_parse_failure_raises (env : Env) (s : String)
    (url filename : Option String) (hp : parseString s = none) :
    SVG.setData (some s) = .error PyError.xmlParseError
    ∧ (pyStartsWith s "http" = false →
        SVG.init env (some s) url filename = .error PyError.xmlParseError) := by
  have hset : SVG.setData (some s) = .error PyError.xmlParseError := by
    simp only [SVG.setData, hp]
  refine ⟨hset, fun hhttp => ?_⟩
  simp only [SVG.init, hhttp, Bool.false_eq_true, if_false, hset]

/-- Evidence for the amended C9 theorem at a concrete input. -/
theorem svg_parse_failure_raises_witness :
    SVG.setData (some "<unclosed") = .error PyError.xmlParseError
    ∧ SVG.init failEnv (some "<unclosed") none none =
        .error PyError.xmlParseError := by
  have h := svg_parse_failure_raises failEnv "<unclosed" none none rfl
  exact ⟨h.1, h.2 (by decide)⟩

end IPyDisplay
